import Mathlib

/-!
Shallow embedding of the brute-force frequent-itemset mining code of the
repository (files `src/brute_force_mining.py`, `algorithms_brute_force.py`,
`main.py`), together with theorems settling the specification claims.

Modelling conventions:
* Python strings are `String`; a Python `frozenset` of items is represented
  canonically as the lexicographically sorted duplicate-free `List Item`
  (every frozenset the program builds arises from a combination of the
  sorted item universe, so this canonical form is exact).
* Python floats (`min_support`, `min_confidence`, supports, confidences,
  lifts) are modelled as exact rationals `ℚ`.
* Python runtime errors (`ZeroDivisionError` on division by zero,
  `ValueError` from `max()` on an empty sequence) are modelled by
  `Except String`.
* The `while True` mining loop is modelled with explicit fuel; the fuel
  bound `|universe| + 1` is proved sufficient.
-/

set_option allowUnsafeReducibility true

attribute [local semireducible] Rat.mul Rat.inv Rat.div Rat.add Rat.sub Rat.blt

abbrev Item := String

abbrev Itemset := List Item

abbrev Transaction := List Item

/-- The dict `{k: [(itemset, support_count)]}` built by the miners, as an
association list in key-insertion order. -/
abbrev FreqTable := List (Nat × List (Itemset × Nat))

/-- The rule dict appended by the generators (`antecedent`, `consequent`,
`support`, `confidence`, `lift`). -/
structure AssociationRule where
  antecedent : Itemset
  consequent : Itemset
  support : ℚ
  confidence : ℚ
  lift : ℚ
deriving DecidableEq

instance {ε α : Type} [DecidableEq ε] [DecidableEq α] : DecidableEq (Except ε α) := fun a b =>
  match a, b with
  | .ok x, .ok y =>
    if h : x = y then .isTrue (by rw [h]) else .isFalse (fun hh => by cases hh; exact h rfl)
  | .error x, .error y =>
    if h : x = y then .isTrue (by rw [h]) else .isFalse (fun hh => by cases hh; exact h rfl)
  | .ok _, .error _ => .isFalse (fun hh => by cases hh)
  | .error _, .ok _ => .isFalse (fun hh => by cases hh)

/-- Python `itemset.issubset(transaction)` on our list representation. -/
def issubset (s t : List Item) : Bool :=
  s.all (fun x => t.contains x)

/-- `itertools.combinations(l, k)`: all k-element subsequences of `l`, in
the order itertools emits them (elements keep their relative order in `l`). -/
def combinations : Nat → List Item → List (List Item)
  | 0, _ => [[]]
  | _ + 1, [] => []
  | k + 1, x :: xs => (combinations k xs).map (fun c => x :: c) ++ combinations (k + 1) xs

/-- Executable lexicographic comparison of character lists (the order Python
uses to compare strings). -/
def charListLe : List Char → List Char → Bool
  | [], _ => true
  | _ :: _, [] => false
  | c :: cs, d :: ds => if c < d then true else if d < c then false else charListLe cs ds

/-- Lexicographic comparison of items, as Python string comparison. -/
def itemLe (a b : Item) : Bool := charListLe a.data b.data

/-- The item order as a proposition, for use with `List.insertionSort`. -/
def itemLeP (a b : Item) : Prop := itemLe a b = true

instance : DecidableRel itemLeP := fun a b => by
  simp only [itemLeP]; exact inferInstance

theorem charListLe_total : ∀ cs ds : List Char, charListLe cs ds = true ∨ charListLe ds cs = true
  | [], _ => Or.inl rfl
  | _ :: _, [] => Or.inr rfl
  | c :: cs, d :: ds => by
    rcases lt_trichotomy c d with h | h | h
    · left; simp [charListLe, h]
    · subst h
      rcases charListLe_total cs ds with h' | h'
      · left; simp [charListLe, lt_irrefl, h']
      · right; simp [charListLe, lt_irrefl, h']
    · right; simp [charListLe, h]

theorem charListLe_trans : ∀ as bs cs : List Char,
    charListLe as bs = true → charListLe bs cs = true → charListLe as cs = true
  | [], _, _ => fun _ _ => rfl
  | _ :: _, [], _ => fun h _ => by simp [charListLe] at h
  | _ :: _, _ :: _, [] => fun _ h => by simp [charListLe] at h
  | a :: as, b :: bs, c :: cs => fun h1 h2 => by
    simp only [charListLe] at h1 h2 ⊢
    rcases lt_trichotomy a b with hab | hab | hab
    · rcases lt_trichotomy b c with hbc | hbc | hbc
      · simp [hab.trans hbc]
      · subst hbc; simp [hab]
      · simp [hbc, asymm hbc] at h2
    · subst hab
      rcases lt_trichotomy a c with hac | hac | hac
      · simp [hac]
      · subst hac
        simp only [lt_irrefl, if_false] at h1 h2 ⊢
        exact charListLe_trans as bs cs h1 h2
      · simp [hac, asymm hac] at h2
    · simp [hab, asymm hab] at h1

instance : IsTotal Item itemLeP where
  total a b := charListLe_total a.data b.data

instance : IsTrans Item itemLeP where
  trans a b c hab hbc := charListLe_trans a.data b.data c.data hab hbc

/-- `sorted(list(all_items))`: the universe of items accumulated across all
transactions, duplicates collapsed, sorted lexicographically. -/
def items_list (transactions : List Transaction) : List Item :=
  List.insertionSort itemLeP (transactions.flatMap id).dedup

/-- The antecedent enumeration of the rule generators: the nested loops
`for i in range(1, len(items)): for antecedent_items in combinations(items, i)`. -/
def antecedentsOf (itemset : Itemset) : List Itemset :=
  (List.range' 1 (itemset.length - 1)).flatMap (fun i => combinations i itemset)

/-- The sort key order of the final
`sorted(rules, key=lambda x: (x[confidence], x[support]), reverse=True)`:
`a` may come before `b` iff the (confidence, support) pair of `a` is
lexicographically ≥ that of `b`. -/
def ruleGe (a b : AssociationRule) : Prop :=
  b.confidence < a.confidence ∨ (b.confidence = a.confidence ∧ b.support ≤ a.support)

instance : DecidableRel ruleGe := fun a b => by
  simp only [ruleGe]; exact inferInstance

instance : IsTotal AssociationRule ruleGe where
  total a b := by
    simp only [ruleGe]
    rcases lt_trichotomy a.confidence b.confidence with h | h | h
    · exact Or.inr (Or.inl h)
    · rcases le_total b.support a.support with hs | hs
      · exact Or.inl (Or.inr ⟨h.symm, hs⟩)
      · exact Or.inr (Or.inr ⟨h, hs⟩)
    · exact Or.inl (Or.inl h)

instance : IsTrans AssociationRule ruleGe where
  trans a b c hab hbc := by
    simp only [ruleGe] at *
    rcases hab with h1 | ⟨h1, s1⟩
    · rcases hbc with h2 | ⟨h2, _⟩
      · exact Or.inl (h2.trans h1)
      · exact Or.inl (h2 ▸ h1)
    · rcases hbc with h2 | ⟨h2, s2⟩
      · exact Or.inl (h1 ▸ h2)
      · exact Or.inr ⟨h2.trans h1, s2.trans s1⟩

/-- Python stable descending sort by the (confidence, support) key. -/
def sortRules (rules : List AssociationRule) : List AssociationRule :=
  List.insertionSort ruleGe rules

/-- Python builtin `max` over a non-empty list of dict keys (0 on the empty
list, which every caller guards against: Python raises `ValueError` there). -/
def maxKey : List Nat → Nat
  | [] => 0
  | k :: ks => ks.foldl max k

namespace BruteForceMiner

/-- `BruteForceMiner.get_support_count`: how many transactions contain the itemset. -/
def get_support_count (itemset : Itemset) (transactions : List Transaction) : Nat :=
  transactions.countP (fun t => issubset itemset t)

/-- `BruteForceMiner.is_frequent`: dual relative/absolute minimum-support test. -/
def is_frequent (itemset : Itemset) (transactions : List Transaction) (min_support : ℚ) : Bool :=
  let support_count := get_support_count itemset transactions
  if min_support < 1 then
    decide (min_support * (transactions.length : ℚ) ≤ (support_count : ℚ))
  else
    decide (min_support ≤ (support_count : ℚ))

/-- The `frequent_k_itemsets` list built at level `k` of
`find_frequent_itemsets`: every k-combination is tested, the frequent ones
are appended in enumeration order, paired with their support counts. -/
def frequentLevel (transactions : List Transaction) (min_support : ℚ)
    (itemsList : List Item) (k : Nat) : List (Itemset × Nat) :=
  ((combinations k itemsList).filter (fun s => is_frequent s transactions min_support)).map
    (fun s => (s, get_support_count s transactions))

/-- The `while True` loop of `find_frequent_itemsets`, with explicit fuel. -/
def findLoop (transactions : List Transaction) (min_support : ℚ)
    (itemsList : List Item) : Nat → Nat → FreqTable
  | 0, _ => []
  | fuel + 1, k =>
    let frequent_k := frequentLevel transactions min_support itemsList k
    if frequent_k = [] then []
    else (k, frequent_k) :: findLoop transactions min_support itemsList fuel (k + 1)

/-- `BruteForceMiner.find_frequent_itemsets`.  Fuel `|universe| + 1` is
sufficient, as proved by the termination theorem below. -/
def find_frequent_itemsets (transactions : List Transaction) (min_support : ℚ) : FreqTable :=
  findLoop transactions min_support (items_list transactions)
    ((items_list transactions).length + 1) 1

/-- The antecedent loops of `BruteForceMiner.generate_association_rules` for
one frequent itemset.  The lift division
`confidence / self.get_support(consequent)` is NOT zero-guarded in this file. -/
def rulesLoop (transactions : List Transaction) (min_confidence : ℚ)
    (itemset : Itemset) (support_count : Nat) :
    List Itemset → Except String (List AssociationRule)
  | [] => .ok []
  | antecedent :: rest =>
    let consequent := itemset.filter (fun x => ! antecedent.contains x)
    let antecedent_support_count := get_support_count antecedent transactions
    if antecedent_support_count = 0 then
      rulesLoop transactions min_confidence itemset support_count rest
    else
      let confidence : ℚ := (support_count : ℚ) / (antecedent_support_count : ℚ)
      if min_confidence ≤ confidence then
        if transactions.length = 0 then
          .error "ZeroDivisionError: division by zero"
        else
          let support : ℚ := (support_count : ℚ) / (transactions.length : ℚ)
          let consequent_support : ℚ :=
            (get_support_count consequent transactions : ℚ) / (transactions.length : ℚ)
          if consequent_support = 0 then
            .error "ZeroDivisionError: float division by zero"
          else
            match rulesLoop transactions min_confidence itemset support_count rest with
            | .error e => .error e
            | .ok rs =>
              .ok (⟨antecedent, consequent, support, confidence,
                    confidence / consequent_support⟩ :: rs)
      else rulesLoop transactions min_confidence itemset support_count rest

/-- The `for itemset, support_count in self.frequent_itemsets[k]` loop. -/
def rulesForLevel (transactions : List Transaction) (min_confidence : ℚ) :
    List (Itemset × Nat) → Except String (List AssociationRule)
  | [] => .ok []
  | (itemset, support_count) :: rest =>
    match rulesLoop transactions min_confidence itemset support_count (antecedentsOf itemset) with
    | .error e => .error e
    | .ok rs =>
      match rulesForLevel transactions min_confidence rest with
      | .error e => .error e
      | .ok rest' => .ok (rs ++ rest')

/-- The `for k in range(2, max(keys) + 1)` loop with `if k not in ...: continue`. -/
def rulesOverKs (table : FreqTable) (transactions : List Transaction) (min_confidence : ℚ) :
    List Nat → Except String (List AssociationRule)
  | [] => .ok []
  | k :: ks =>
    match table.lookup k with
    | none => rulesOverKs table transactions min_confidence ks
    | some lvl =>
      match rulesForLevel transactions min_confidence lvl with
      | .error e => .error e
      | .ok rs =>
        match rulesOverKs table transactions min_confidence ks with
        | .error e => .error e
        | .ok rest => .ok (rs ++ rest)

/-- `BruteForceMiner.generate_association_rules`: `max()` of the key view
raises `ValueError` on an empty dict; the final list is sorted descending by
(confidence, support). -/
def generate_association_rules (table : FreqTable) (transactions : List Transaction)
    (min_confidence : ℚ) : Except String (List AssociationRule) :=
  if table = [] then .error "ValueError: max() arg is an empty sequence"
  else
    match rulesOverKs table transactions min_confidence
        (List.range' 2 (maxKey (table.map Prod.fst) - 1)) with
    | .error e => .error e
    | .ok rules => .ok (sortRules rules)

end BruteForceMiner

namespace AlgorithmsBruteForce

/-- `algorithms_brute_force.get_support_count`. -/
def get_support_count (itemset : Itemset) (transactions : List Transaction) : Nat :=
  transactions.countP (fun t => issubset itemset t)

/-- `algorithms_brute_force.is_frequent`: dual relative/absolute minimum-support test. -/
def is_frequent (itemset : Itemset) (transactions : List Transaction) (min_support : ℚ) : Bool :=
  let support_count := get_support_count itemset transactions
  if min_support < 1 then
    decide (min_support * (transactions.length : ℚ) ≤ (support_count : ℚ))
  else
    decide (min_support ≤ (support_count : ℚ))

/-- The `frequent_k` list built at one level of `brute_force_mining`. -/
def frequentLevel (transactions : List Transaction) (min_support : ℚ)
    (itemsList : List Item) (k : Nat) : List (Itemset × Nat) :=
  ((combinations k itemsList).filter (fun s => is_frequent s transactions min_support)).map
    (fun s => (s, get_support_count s transactions))

/-- The `while True` loop of `brute_force_mining`, with explicit fuel. -/
def mineLoop (transactions : List Transaction) (min_support : ℚ)
    (itemsList : List Item) : Nat → Nat → FreqTable
  | 0, _ => []
  | fuel + 1, k =>
    let frequent_k := frequentLevel transactions min_support itemsList k
    if frequent_k = [] then []
    else (k, frequent_k) :: mineLoop transactions min_support itemsList fuel (k + 1)

/-- `algorithms_brute_force.brute_force_mining` (the returned table; the
elapsed-time component is timing, not data). -/
def brute_force_mining (transactions : List Transaction) (min_support : ℚ) : FreqTable :=
  mineLoop transactions min_support (items_list transactions)
    ((items_list transactions).length + 1) 1

/-- The antecedent loops of `algorithms_brute_force.generate_association_rules`
for one frequent itemset.  Here the lift division IS zero-guarded:
`lift = confidence / consequent_support if consequent_support > 0 else 0`. -/
def rulesLoop (transactions : List Transaction) (min_confidence : ℚ)
    (itemset : Itemset) (support_count : Nat) :
    List Itemset → Except String (List AssociationRule)
  | [] => .ok []
  | antecedent :: rest =>
    let consequent := itemset.filter (fun x => ! antecedent.contains x)
    let antecedent_support_count := get_support_count antecedent transactions
    if antecedent_support_count = 0 then
      rulesLoop transactions min_confidence itemset support_count rest
    else
      let confidence : ℚ := (support_count : ℚ) / (antecedent_support_count : ℚ)
      if min_confidence ≤ confidence then
        if transactions.length = 0 then
          .error "ZeroDivisionError: division by zero"
        else
          let support : ℚ := (support_count : ℚ) / (transactions.length : ℚ)
          let consequent_support : ℚ :=
            (get_support_count consequent transactions : ℚ) / (transactions.length : ℚ)
          let lift : ℚ := if 0 < consequent_support then confidence / consequent_support else 0
          match rulesLoop transactions min_confidence itemset support_count rest with
          | .error e => .error e
          | .ok rs => .ok (⟨antecedent, consequent, support, confidence, lift⟩ :: rs)
      else rulesLoop transactions min_confidence itemset support_count rest

/-- The `for itemset, support_count in frequent_itemsets[k]` loop. -/
def rulesForLevel (transactions : List Transaction) (min_confidence : ℚ) :
    List (Itemset × Nat) → Except String (List AssociationRule)
  | [] => .ok []
  | (itemset, support_count) :: rest =>
    match rulesLoop transactions min_confidence itemset support_count (antecedentsOf itemset) with
    | .error e => .error e
    | .ok rs =>
      match rulesForLevel transactions min_confidence rest with
      | .error e => .error e
      | .ok rest' => .ok (rs ++ rest')

/-- The `for k in range(2, max(keys) + 1)` loop with `if k not in ...: continue`. -/
def rulesOverKs (table : FreqTable) (transactions : List Transaction) (min_confidence : ℚ) :
    List Nat → Except String (List AssociationRule)
  | [] => .ok []
  | k :: ks =>
    match table.lookup k with
    | none => rulesOverKs table transactions min_confidence ks
    | some lvl =>
      match rulesForLevel transactions min_confidence lvl with
      | .error e => .error e
      | .ok rs =>
        match rulesOverKs table transactions min_confidence ks with
        | .error e => .error e
        | .ok rest => .ok (rs ++ rest)

/-- `algorithms_brute_force.generate_association_rules`: no guard on the
empty table, so `max(frequent_itemsets.keys())` raises `ValueError` there. -/
def generate_association_rules (table : FreqTable) (transactions : List Transaction)
    (min_confidence : ℚ) : Except String (List AssociationRule) :=
  if table = [] then .error "ValueError: max() arg is an empty sequence"
  else
    match rulesOverKs table transactions min_confidence
        (List.range' 2 (maxKey (table.map Prod.fst) - 1)) with
    | .error e => .error e
    | .ok rules => .ok (sortRules rules)

end AlgorithmsBruteForce

namespace InteractiveMiner

/-- `InteractiveMiner.get_support_count`. -/
def get_support_count (itemset : Itemset) (transactions : List Transaction) : Nat :=
  transactions.countP (fun t => issubset itemset t)

/-- `InteractiveMiner.is_frequent`: dual relative/absolute minimum-support test. -/
def is_frequent (itemset : Itemset) (transactions : List Transaction) (min_support : ℚ) : Bool :=
  let support_count := get_support_count itemset transactions
  if min_support < 1 then
    decide (min_support * (transactions.length : ℚ) ≤ (support_count : ℚ))
  else
    decide (min_support ≤ (support_count : ℚ))

/-- The `frequent_k` list built at one level of `run_brute_force`. -/
def frequentLevel (transactions : List Transaction) (min_support : ℚ)
    (itemsList : List Item) (k : Nat) : List (Itemset × Nat) :=
  ((combinations k itemsList).filter (fun s => is_frequent s transactions min_support)).map
    (fun s => (s, get_support_count s transactions))

/-- The `while True` loop of `InteractiveMiner.run_brute_force`, with fuel. -/
def mineLoop (transactions : List Transaction) (min_support : ℚ)
    (itemsList : List Item) : Nat → Nat → FreqTable
  | 0, _ => []
  | fuel + 1, k =>
    let frequent_k := frequentLevel transactions min_support itemsList k
    if frequent_k = [] then []
    else (k, frequent_k) :: mineLoop transactions min_support itemsList fuel (k + 1)

/-- The frequent-itemset table produced by `InteractiveMiner.run_brute_force`
(the method also derives rules and prints; the table is the mining result). -/
def run_brute_force (transactions : List Transaction) (min_support : ℚ) : FreqTable :=
  mineLoop transactions min_support (items_list transactions)
    ((items_list transactions).length + 1) 1

/-- The antecedent loops of `InteractiveMiner.generate_rules` for one
frequent itemset; the lift division is zero-guarded as in
`algorithms_brute_force`. -/
def rulesLoop (transactions : List Transaction) (min_confidence : ℚ)
    (itemset : Itemset) (support_count : Nat) :
    List Itemset → Except String (List AssociationRule)
  | [] => .ok []
  | antecedent :: rest =>
    let consequent := itemset.filter (fun x => ! antecedent.contains x)
    let antecedent_support_count := get_support_count antecedent transactions
    if antecedent_support_count = 0 then
      rulesLoop transactions min_confidence itemset support_count rest
    else
      let confidence : ℚ := (support_count : ℚ) / (antecedent_support_count : ℚ)
      if min_confidence ≤ confidence then
        if transactions.length = 0 then
          .error "ZeroDivisionError: division by zero"
        else
          let support : ℚ := (support_count : ℚ) / (transactions.length : ℚ)
          let consequent_support : ℚ :=
            (get_support_count consequent transactions : ℚ) / (transactions.length : ℚ)
          let lift : ℚ := if 0 < consequent_support then confidence / consequent_support else 0
          match rulesLoop transactions min_confidence itemset support_count rest with
          | .error e => .error e
          | .ok rs => .ok (⟨antecedent, consequent, support, confidence, lift⟩ :: rs)
      else rulesLoop transactions min_confidence itemset support_count rest

/-- The `for itemset, support_count in frequent_itemsets[k]` loop. -/
def rulesForLevel (transactions : List Transaction) (min_confidence : ℚ) :
    List (Itemset × Nat) → Except String (List AssociationRule)
  | [] => .ok []
  | (itemset, support_count) :: rest =>
    match rulesLoop transactions min_confidence itemset support_count (antecedentsOf itemset) with
    | .error e => .error e
    | .ok rs =>
      match rulesForLevel transactions min_confidence rest with
      | .error e => .error e
      | .ok rest' => .ok (rs ++ rest')

/-- The `for k in range(2, max(keys) + 1)` loop with `if k not in ...: continue`. -/
def rulesOverKs (table : FreqTable) (transactions : List Transaction) (min_confidence : ℚ) :
    List Nat → Except String (List AssociationRule)
  | [] => .ok []
  | k :: ks =>
    match table.lookup k with
    | none => rulesOverKs table transactions min_confidence ks
    | some lvl =>
      match rulesForLevel transactions min_confidence lvl with
      | .error e => .error e
      | .ok rs =>
        match rulesOverKs table transactions min_confidence ks with
        | .error e => .error e
        | .ok rest => .ok (rs ++ rest)

/-- `InteractiveMiner.generate_rules`: unlike the other two generators this
one guards the empty table (`if not frequent_itemsets: return rules`). -/
def generate_rules (table : FreqTable) (transactions : List Transaction)
    (min_confidence : ℚ) : Except String (List AssociationRule) :=
  if table.isEmpty then .ok []
  else
    match rulesOverKs table transactions min_confidence
        (List.range' 2 (maxKey (table.map Prod.fst) - 1)) with
    | .error e => .error e
    | .ok rules => .ok (sortRules rules)

end InteractiveMiner

/-! ### Properties of the candidate enumeration -/

theorem combinations_length : ∀ (k : Nat) (l : List Item),
    (combinations k l).length = Nat.choose l.length k
  | 0, l => by simp [combinations]
  | k + 1, [] => by simp [combinations]
  | k + 1, x :: xs => by
    simp [combinations, combinations_length k xs, combinations_length (k + 1) xs,
      Nat.choose_succ_succ]

theorem mem_combinations : ∀ (k : Nat) (l c : List Item),
    c ∈ combinations k l ↔ c.Sublist l ∧ c.length = k
  | 0, l, c => by
    constructor
    · intro h
      simp only [combinations, List.mem_singleton] at h
      subst h
      exact ⟨List.nil_sublist l, rfl⟩
    · rintro ⟨_, hl⟩
      have hc : c = [] := List.length_eq_zero.mp hl
      subst hc
      simp [combinations]
  | k + 1, [], c => by
    constructor
    · intro h
      simp [combinations] at h
    · rintro ⟨hs, hl⟩
      have hc : c = [] := List.sublist_nil.mp hs
      subst hc
      simp at hl
  | k + 1, x :: xs, c => by
    constructor
    · intro h
      simp only [combinations, List.mem_append, List.mem_map] at h
      rcases h with ⟨c', hc', rfl⟩ | h
      · have h' := (mem_combinations k xs c').mp hc'
        exact ⟨List.Sublist.cons₂ x h'.1, by simp [h'.2]⟩
      · have h' := (mem_combinations (k + 1) xs c).mp h
        exact ⟨List.Sublist.cons x h'.1, h'.2⟩
    · rintro ⟨hs, hl⟩
      cases hs with
      | cons _ h' =>
        exact List.mem_append.mpr
          (Or.inr ((mem_combinations (k + 1) xs c).mpr ⟨h', hl⟩))
      | cons₂ _ h' =>
        rename_i c'
        simp only [List.length_cons, Nat.succ.injEq] at hl
        exact List.mem_append.mpr
          (Or.inl (List.mem_map.mpr ⟨c', (mem_combinations k xs c').mpr ⟨h', hl⟩, rfl⟩))

theorem nodup_combinations : ∀ (k : Nat) (l : List Item),
    l.Nodup → (combinations k l).Nodup
  | 0, l, _ => by simp [combinations]
  | k + 1, [], _ => by simp [combinations]
  | k + 1, x :: xs, h => by
    rcases List.nodup_cons.mp h with ⟨hx, hxs⟩
    simp only [combinations]
    apply List.Nodup.append
    · exact (nodup_combinations k xs hxs).map (fun a b hab => by simpa using hab)
    · exact nodup_combinations (k + 1) xs hxs
    · intro c hc1 hc2
      rcases List.mem_map.mp hc1 with ⟨c', _, rfl⟩
      have hs := ((mem_combinations (k + 1) xs (x :: c')).mp hc2).1
      exact hx (hs.subset (List.mem_cons_self x c'))

theorem combinations_eq_nil {k : Nat} {l : List Item} (h : l.length < k) :
    combinations k l = [] :=
  List.length_eq_zero.mp (by rw [combinations_length]; exact Nat.choose_eq_zero_of_lt h)

theorem items_list_sorted (T : List Transaction) : List.Sorted itemLeP (items_list T) :=
  List.sorted_insertionSort itemLeP _

theorem items_list_nodup (T : List Transaction) : (items_list T).Nodup :=
  ((List.perm_insertionSort itemLeP _).nodup_iff).mpr (List.nodup_dedup _)

/-- Claim C6: for every universe (the lexicographically sorted duplicate-free
item list of the transaction store) and every k ≥ 1, candidate enumeration
produces every k-element subset of the universe exactly once — C(|U|, k)
itemsets in total, with no filtering — in the canonical order derived from the
sorted universe (a deterministic pure function): the enumerated itemsets are
exactly the k-element sorted sublists of the universe, without repetition. -/
theorem enumeration_complete (T : List Transaction) (k : Nat) (_hk : 1 ≤ k) :
    List.Sorted itemLeP (items_list T) ∧ (items_list T).Nodup
    ∧ (combinations k (items_list T)).length = Nat.choose (items_list T).length k
    ∧ (∀ c, c ∈ combinations k (items_list T) ↔ c.Sublist (items_list T) ∧ c.length = k)
    ∧ (combinations k (items_list T)).Nodup :=
  ⟨items_list_sorted T, items_list_nodup T, combinations_length k _,
    fun c => mem_combinations k _ c, nodup_combinations k _ (items_list_nodup T)⟩

/-- Witness for C6 at the concrete store [[b],[a]] with k = 1. -/
theorem enumeration_complete_witness :
    List.Sorted itemLeP (items_list [["b"], ["a"]]) ∧ (items_list [["b"], ["a"]]).Nodup
    ∧ (combinations 1 (items_list [["b"], ["a"]])).length
        = Nat.choose (items_list [["b"], ["a"]]).length 1
    ∧ (∀ c, c ∈ combinations 1 (items_list [["b"], ["a"]])
        ↔ c.Sublist (items_list [["b"], ["a"]]) ∧ c.length = 1)
    ∧ (combinations 1 (items_list [["b"], ["a"]])).Nodup :=
  enumeration_complete [["b"], ["a"]] 1 (by decide)

/-! ### Characterization of the level-wise mining loop -/

namespace BruteForceMiner

theorem frequentLevel_eq_nil (T : List Transaction) (ms : ℚ) (u : List Item)
    {k : Nat} (h : u.length < k) : frequentLevel T ms u k = [] := by
  simp [frequentLevel, combinations_eq_nil h]

theorem findLoop_high (T : List Transaction) (ms : ℚ) (u : List Item) :
    ∀ (fuel k : Nat), u.length + 1 < k → findLoop T ms u fuel k = []
  | 0, _, _ => rfl
  | fuel + 1, k, h => by
    simp [findLoop, frequentLevel_eq_nil T ms u (k := k) (by omega)]

theorem findLoop_fuel_eq (T : List Transaction) (ms : ℚ) (u : List Item) :
    ∀ (f1 f2 k : Nat), u.length + 2 ≤ k + f1 → f1 ≤ f2 →
      findLoop T ms u f1 k = findLoop T ms u f2 k
  | 0, f2, k, hb, _ => by
    rw [findLoop, findLoop_high T ms u f2 k (by omega)]
  | f1 + 1, f2, k, hb, hle => by
    match f2, hle with
    | f2 + 1, _ =>
      simp only [findLoop]
      by_cases h : frequentLevel T ms u k = []
      · simp [h]
      · simp only [h, if_neg]
        rw [findLoop_fuel_eq T ms u f1 f2 (k + 1) (by omega) (by omega)]

theorem findLoop_spec (T : List Transaction) (ms : ℚ) (u : List Item) :
    ∀ (fuel k : Nat), u.length + 2 ≤ k + fuel →
      ∃ m : Nat,
        findLoop T ms u fuel k
          = (List.range' k m).map (fun j => (j, frequentLevel T ms u j))
        ∧ (∀ j, k ≤ j → j < k + m → frequentLevel T ms u j ≠ [])
        ∧ frequentLevel T ms u (k + m) = []
  | 0, k, hb => by
    refine ⟨0, by simp [findLoop], by omega, ?_⟩
    exact frequentLevel_eq_nil T ms u (by omega)
  | fuel + 1, k, hb => by
    by_cases h : frequentLevel T ms u k = []
    · exact ⟨0, by simp [findLoop, h], by omega, by simpa using h⟩
    · obtain ⟨m, htab, hne, hend⟩ := findLoop_spec T ms u fuel (k + 1) (by omega)
      refine ⟨m + 1, ?_, ?_, ?_⟩
      · simp only [findLoop, h, if_neg, List.range'_succ, List.map_cons]
        rw [htab]
        simp
      · intro j hj1 hj2
        rcases Nat.eq_or_lt_of_le hj1 with rfl | hj
        · exact h
        · exact hne j hj (by omega)
      · have : k + (m + 1) = (k + 1) + m := by omega
        rw [this]
        exact hend

theorem mem_findLoop (T : List Transaction) (ms : ℚ) (u : List Item) :
    ∀ (fuel k : Nat) {k' : Nat} {lvl : List (Itemset × Nat)},
      (k', lvl) ∈ findLoop T ms u fuel k → lvl = frequentLevel T ms u k'
  | 0, _, _, _, h => by simp [findLoop] at h
  | fuel + 1, k, k', lvl, h => by
    simp only [findLoop] at h
    by_cases hnil : frequentLevel T ms u k = []
    · simp [hnil] at h
    · rw [if_neg hnil] at h
      rcases List.mem_cons.mp h with h | h
      · injection h with h1 h2
        subst h1
        exact h2
      · exact mem_findLoop T ms u fuel (k + 1) h

theorem mem_frequentLevel {T : List Transaction} {ms : ℚ} {u : List Item} {k : Nat}
    {s : Itemset} {c : Nat} (h : (s, c) ∈ frequentLevel T ms u k) :
    c = get_support_count s T ∧ is_frequent s T ms = true ∧ s ∈ combinations k u := by
  simp only [frequentLevel, List.mem_map, List.mem_filter, Prod.mk.injEq] at h
  obtain ⟨s', ⟨hmem, hfreq⟩, rfl, rfl⟩ := h
  exact ⟨rfl, hfreq, hmem⟩

end BruteForceMiner

/-- Claim C1 counterexample: at the store [[a],[b],[b]] with minimum support 1
(absolute), the recorded list of frequent 1-itemsets is [({a},1), ({b},2)] —
the canonical enumeration order — which is NOT sorted by descending
SupportCount, contrary to the claim about the recorded table. -/
theorem find_frequent_itemsets_not_sorted_by_count :
    BruteForceMiner.find_frequent_itemsets [["a"], ["b"], ["b"]] 1
      = [(1, [(["a"], 1), (["b"], 2)])]
    ∧ ¬ List.Pairwise (fun a b : Itemset × Nat => b.2 ≤ a.2) [(["a"], 1), (["b"], 2)] := by
  exact ⟨by decide, by decide⟩

/-- Claim C1 (amended): the level-wise engine starts at k = 1 and, for each k,
tests every k-itemset for frequency; at the first k at which zero frequent
k-itemsets are found it terminates and the returned table contains entries
only for sizes < k; otherwise it records the frequent k-itemsets under key k
in canonical enumeration order (the descending-SupportCount sort is applied
only for presentation) and proceeds to testing k + 1.  Formally: the table is
exactly the levels 1..m for some m, every recorded level is the non-empty
filtered enumeration of its size, and level m + 1 is the first empty one. -/
theorem find_frequent_itemsets_levelwise (T : List Transaction) (ms : ℚ) :
    ∃ m : Nat,
      BruteForceMiner.find_frequent_itemsets T ms
        = (List.range' 1 m).map
            (fun k => (k, BruteForceMiner.frequentLevel T ms (items_list T) k))
      ∧ (∀ k, 1 ≤ k → k < 1 + m →
          BruteForceMiner.frequentLevel T ms (items_list T) k ≠ [])
      ∧ BruteForceMiner.frequentLevel T ms (items_list T) (1 + m) = [] :=
  BruteForceMiner.findLoop_spec T ms (items_list T) ((items_list T).length + 1) 1 (by omega)

/-- Witness for the amended C1 at the concrete store [[a],[b],[b]], min support 1. -/
theorem find_frequent_itemsets_levelwise_witness :
    ∃ m : Nat,
      BruteForceMiner.find_frequent_itemsets [["a"], ["b"], ["b"]] 1
        = (List.range' 1 m).map
            (fun k => (k, BruteForceMiner.frequentLevel [["a"], ["b"], ["b"]] 1
              (items_list [["a"], ["b"], ["b"]]) k))
      ∧ (∀ k, 1 ≤ k → k < 1 + m →
          BruteForceMiner.frequentLevel [["a"], ["b"], ["b"]] 1
            (items_list [["a"], ["b"], ["b"]]) k ≠ [])
      ∧ BruteForceMiner.frequentLevel [["a"], ["b"], ["b"]] 1
          (items_list [["a"], ["b"], ["b"]]) (1 + m) = [] :=
  find_frequent_itemsets_levelwise [["a"], ["b"], ["b"]] 1

/-- Claim C9: mining terminates — the level-wise loop needs at most
|universe| + 1 iterations: any fuel of at least |universe| + 1 produces the
same table, because at k = |universe| + 1 there are no k-subsets of the
universe, so the frequent level is empty and the loop exits. -/
theorem mining_terminates_within_universe_bound (T : List Transaction) (ms : ℚ)
    (fuel : Nat) (h : (items_list T).length + 1 ≤ fuel) :
    BruteForceMiner.findLoop T ms (items_list T) fuel 1
      = BruteForceMiner.find_frequent_itemsets T ms
    ∧ combinations ((items_list T).length + 1) (items_list T) = []
    ∧ BruteForceMiner.frequentLevel T ms (items_list T) ((items_list T).length + 1) = [] :=
  ⟨(BruteForceMiner.findLoop_fuel_eq T ms (items_list T)
      ((items_list T).length + 1) fuel 1 (by omega) h).symm,
    combinations_eq_nil (by omega),
    BruteForceMiner.frequentLevel_eq_nil T ms (items_list T) (by omega)⟩

/-- Witness for C9 at the concrete store [[a]] with fuel 5. -/
theorem mining_terminates_within_universe_bound_witness :
    BruteForceMiner.findLoop [["a"]] (1/2) (items_list [["a"]]) 5 1
      = BruteForceMiner.find_frequent_itemsets [["a"]] (1/2)
    ∧ combinations ((items_list [["a"]]).length + 1) (items_list [["a"]]) = []
    ∧ BruteForceMiner.frequentLevel [["a"]] (1/2) (items_list [["a"]])
        ((items_list [["a"]]).length + 1) = [] :=
  mining_terminates_within_universe_bound [["a"]] (1/2) 5 (by decide)

/-! ### The minimum-support boundary (C5) and the dual threshold rule (C2) -/

/-- Claim C5 counterexample: mining with minSupport = 1.0 does NOT restrict to
itemsets present in every transaction: 1.0 falls into the absolute-count
branch with threshold 1, so at the store [[a],[b]] the itemset {a} is
recorded with SupportCount 1 even though numTransactions = 2. -/
theorem min_support_one_not_full_count :
    BruteForceMiner.find_frequent_itemsets [["a"], ["b"]] 1
      = [(1, [(["a"], 1), (["b"], 1)])]
    ∧ (1 : Nat) ≠ ([["a"], ["b"]] : List Transaction).length := by
  exact ⟨by decide, by decide⟩

/-- Claim C5 (amended): minSupport = 1.0 is interpreted by the dual rule as
the absolute count 1, so it yields every itemset with SupportCount ≥ 1; the
property claimed holds for minSupport = numTransactions given as an absolute
count (numTransactions ≥ 1): then every recorded itemset has
SupportCount = numTransactions, i.e. is present in every transaction. -/
theorem min_support_full_count (T : List Transaction) (h1 : 1 ≤ T.length)
    {k : Nat} {lvl : List (Itemset × Nat)} {s : Itemset} {c : Nat}
    (hk : (k, lvl) ∈ BruteForceMiner.find_frequent_itemsets T ((T.length : ℚ)))
    (hs : (s, c) ∈ lvl) :
    c = T.length ∧ ∀ t ∈ T, issubset s t = true := by
  have hlvl := BruteForceMiner.mem_findLoop T ((T.length : ℚ)) (items_list T)
    ((items_list T).length + 1) 1 hk
  subst hlvl
  obtain ⟨hc, hfreq, _⟩ := BruteForceMiner.mem_frequentLevel hs
  have hge : T.length ≤ BruteForceMiner.get_support_count s T := by
    simp only [BruteForceMiner.is_frequent] at hfreq
    rw [if_neg (not_lt.mpr (by exact_mod_cast h1))] at hfreq
    exact_mod_cast of_decide_eq_true hfreq
  have hle : BruteForceMiner.get_support_count s T ≤ T.length :=
    List.countP_le_length _
  have hcc : c = T.length := by omega
  refine ⟨hcc, ?_⟩
  have : BruteForceMiner.get_support_count s T = T.length := by omega
  exact fun t ht => List.countP_eq_length.mp this t ht

/-- Witness for the amended C5 at the store [[a],[a,b]] with minSupport = 2. -/
theorem min_support_full_count_witness :
    (2 : Nat) = ([["a"], ["a", "b"]] : List Transaction).length
    ∧ ∀ t ∈ ([["a"], ["a", "b"]] : List Transaction), issubset ["a"] t = true :=
  @min_support_full_count [["a"], ["a", "b"]] (by decide)
    1 [(["a"], 2)] ["a"] 2 (by decide) (by decide)

/-- Claim C2: for every non-empty itemset and transaction store, if
minSupport < 1 the frequency test is `count ≥ minSupport × numTransactions`,
and if minSupport ≥ 1 it is the absolute test `count ≥ minSupport`; this holds
for all three implementations (`BruteForceMiner.is_frequent`,
`algorithms_brute_force.is_frequent`, `InteractiveMiner.is_frequent`). -/
theorem is_frequent_dual_threshold (s : Itemset) (T : List Transaction) (ms : ℚ)
    (_hne : s ≠ []) :
    (ms < 1 →
      ((BruteForceMiner.is_frequent s T ms = true
          ↔ ms * (T.length : ℚ) ≤ (BruteForceMiner.get_support_count s T : ℚ))
        ∧ (AlgorithmsBruteForce.is_frequent s T ms = true
          ↔ ms * (T.length : ℚ) ≤ (AlgorithmsBruteForce.get_support_count s T : ℚ))
        ∧ (InteractiveMiner.is_frequent s T ms = true
          ↔ ms * (T.length : ℚ) ≤ (InteractiveMiner.get_support_count s T : ℚ))))
    ∧ (1 ≤ ms →
      ((BruteForceMiner.is_frequent s T ms = true
          ↔ ms ≤ (BruteForceMiner.get_support_count s T : ℚ))
        ∧ (AlgorithmsBruteForce.is_frequent s T ms = true
          ↔ ms ≤ (AlgorithmsBruteForce.get_support_count s T : ℚ))
        ∧ (InteractiveMiner.is_frequent s T ms = true
          ↔ ms ≤ (InteractiveMiner.get_support_count s T : ℚ)))) := by
  constructor
  · intro hlt
    refine ⟨?_, ?_, ?_⟩ <;>
      simp [BruteForceMiner.is_frequent, AlgorithmsBruteForce.is_frequent,
        InteractiveMiner.is_frequent, hlt]
  · intro hge
    have hnlt : ¬ ms < 1 := not_lt.mpr hge
    refine ⟨?_, ?_, ?_⟩ <;>
      simp [BruteForceMiner.is_frequent, AlgorithmsBruteForce.is_frequent,
        InteractiveMiner.is_frequent, hnlt]

/-- Witness for C2 at the itemset [a], the store [[a],[b]] and minSupport 1/2. -/
theorem is_frequent_dual_threshold_witness :
    (["a"] : Itemset) ≠ []
    ∧ (((1 : ℚ)/2 < 1 →
      ((BruteForceMiner.is_frequent ["a"] [["a"], ["b"]] (1/2) = true
          ↔ (1 : ℚ)/2 * (([["a"], ["b"]] : List Transaction).length : ℚ)
              ≤ (BruteForceMiner.get_support_count ["a"] [["a"], ["b"]] : ℚ))
        ∧ (AlgorithmsBruteForce.is_frequent ["a"] [["a"], ["b"]] (1/2) = true
          ↔ (1 : ℚ)/2 * (([["a"], ["b"]] : List Transaction).length : ℚ)
              ≤ (AlgorithmsBruteForce.get_support_count ["a"] [["a"], ["b"]] : ℚ))
        ∧ (InteractiveMiner.is_frequent ["a"] [["a"], ["b"]] (1/2) = true
          ↔ (1 : ℚ)/2 * (([["a"], ["b"]] : List Transaction).length : ℚ)
              ≤ (InteractiveMiner.get_support_count ["a"] [["a"], ["b"]] : ℚ))))
    ∧ (1 ≤ (1 : ℚ)/2 →
      ((BruteForceMiner.is_frequent ["a"] [["a"], ["b"]] (1/2) = true
          ↔ (1 : ℚ)/2 ≤ (BruteForceMiner.get_support_count ["a"] [["a"], ["b"]] : ℚ))
        ∧ (AlgorithmsBruteForce.is_frequent ["a"] [["a"], ["b"]] (1/2) = true
          ↔ (1 : ℚ)/2 ≤ (AlgorithmsBruteForce.get_support_count ["a"] [["a"], ["b"]] : ℚ))
        ∧ (InteractiveMiner.is_frequent ["a"] [["a"], ["b"]] (1/2) = true
          ↔ (1 : ℚ)/2 ≤ (InteractiveMiner.get_support_count ["a"] [["a"], ["b"]] : ℚ))))) :=
  ⟨by decide, is_frequent_dual_threshold ["a"] [["a"], ["b"]] (1/2) (by decide)⟩

/-! ### Equivalence of the three mining implementations (C10) -/

theorem frequentLevel_eq_bf_alg (T : List Transaction) (ms : ℚ) (u : List Item) (k : Nat) :
    BruteForceMiner.frequentLevel T ms u k = AlgorithmsBruteForce.frequentLevel T ms u k := rfl

theorem frequentLevel_eq_alg_im (T : List Transaction) (ms : ℚ) (u : List Item) (k : Nat) :
    AlgorithmsBruteForce.frequentLevel T ms u k = InteractiveMiner.frequentLevel T ms u k := rfl

theorem loops_eq_bf_alg (T : List Transaction) (ms : ℚ) (u : List Item) :
    ∀ (fuel k : Nat),
      BruteForceMiner.findLoop T ms u fuel k = AlgorithmsBruteForce.mineLoop T ms u fuel k
  | 0, _ => rfl
  | fuel + 1, k => by
    simp only [BruteForceMiner.findLoop, AlgorithmsBruteForce.mineLoop,
      frequentLevel_eq_bf_alg, loops_eq_bf_alg T ms u fuel (k + 1)]

theorem loops_eq_alg_im (T : List Transaction) (ms : ℚ) (u : List Item) :
    ∀ (fuel k : Nat),
      AlgorithmsBruteForce.mineLoop T ms u fuel k = InteractiveMiner.mineLoop T ms u fuel k
  | 0, _ => rfl
  | fuel + 1, k => by
    simp only [AlgorithmsBruteForce.mineLoop, InteractiveMiner.mineLoop,
      frequentLevel_eq_alg_im, loops_eq_alg_im T ms u fuel (k + 1)]

/-- Claim C10: the three brute-force mining implementations are equivalent —
on the same transaction sequence and minimum support they produce the same
frequent-itemset table, with the same keys and, for each key, the same
(itemset, SupportCount) pairs in the same order. -/
theorem three_miners_equivalent (T : List Transaction) (ms : ℚ) :
    BruteForceMiner.find_frequent_itemsets T ms = AlgorithmsBruteForce.brute_force_mining T ms
    ∧ AlgorithmsBruteForce.brute_force_mining T ms = InteractiveMiner.run_brute_force T ms :=
  ⟨loops_eq_bf_alg T ms (items_list T) ((items_list T).length + 1) 1,
    loops_eq_alg_im T ms (items_list T) ((items_list T).length + 1) 1⟩

/-! ### Ordering of the generated rules (C8) -/

theorem sortRules_sorted (l : List AssociationRule) : List.Sorted ruleGe (sortRules l) :=
  List.sorted_insertionSort ruleGe l

theorem sortRules_perm (l : List AssociationRule) : List.Perm (sortRules l) l :=
  List.perm_insertionSort ruleGe l

/-- Claim C8: every rule generator returns its rules sorted descending by
confidence with ties broken by descending support (the key order `ruleGe`,
which is total), and — being a pure function of the frequent table, the
transaction store and minConfidence — deterministically. -/
theorem rules_sorted_desc :
    (∀ a b : AssociationRule, ruleGe a b ∨ ruleGe b a)
    ∧ (∀ (table : FreqTable) (T : List Transaction) (mc : ℚ)
        (rules : List AssociationRule),
        BruteForceMiner.generate_association_rules table T mc = .ok rules →
        List.Sorted ruleGe rules)
    ∧ (∀ (table : FreqTable) (T : List Transaction) (mc : ℚ)
        (rules : List AssociationRule),
        AlgorithmsBruteForce.generate_association_rules table T mc = .ok rules →
        List.Sorted ruleGe rules)
    ∧ (∀ (table : FreqTable) (T : List Transaction) (mc : ℚ)
        (rules : List AssociationRule),
        InteractiveMiner.generate_rules table T mc = .ok rules →
        List.Sorted ruleGe rules) := by
  refine ⟨IsTotal.total, ?_, ?_, ?_⟩
  · intro table T mc rules h
    unfold BruteForceMiner.generate_association_rules at h
    by_cases he : table = []
    · rw [if_pos he] at h; cases h
    · rw [if_neg he] at h
      cases hro : BruteForceMiner.rulesOverKs table T mc
          (List.range' 2 (maxKey (table.map Prod.fst) - 1)) with
      | error e => simp only [hro] at h; exact Except.noConfusion h
      | ok rs =>
        simp only [hro] at h
        injection h with h'
        exact h' ▸ sortRules_sorted rs
  · intro table T mc rules h
    unfold AlgorithmsBruteForce.generate_association_rules at h
    by_cases he : table = []
    · rw [if_pos he] at h; cases h
    · rw [if_neg he] at h
      cases hro : AlgorithmsBruteForce.rulesOverKs table T mc
          (List.range' 2 (maxKey (table.map Prod.fst) - 1)) with
      | error e => simp only [hro] at h; exact Except.noConfusion h
      | ok rs =>
        simp only [hro] at h
        injection h with h'
        exact h' ▸ sortRules_sorted rs
  · intro table T mc rules h
    unfold InteractiveMiner.generate_rules at h
    by_cases he : table.isEmpty
    · rw [if_pos he] at h
      injection h with h'
      subst h'
      exact List.sorted_nil
    · rw [if_neg he] at h
      cases hro : InteractiveMiner.rulesOverKs table T mc
          (List.range' 2 (maxKey (table.map Prod.fst) - 1)) with
      | error e => simp only [hro] at h; exact Except.noConfusion h
      | ok rs =>
        simp only [hro] at h
        injection h with h'
        exact h' ▸ sortRules_sorted rs

/-- Witness for C8: the concrete output of the BruteForceMiner generator on
the table mined from [[a,b],[a]] is sorted in the key order. -/
theorem rules_sorted_desc_witness :
    List.Sorted ruleGe
      [⟨["b"], ["a"], 1/2, 1, 1⟩, ⟨["a"], ["b"], 1/2, 1/2, 1⟩] :=
  rules_sorted_desc.2.1 (BruteForceMiner.find_frequent_itemsets [["a", "b"], ["a"]] 1)
    [["a", "b"], ["a"]] (1/2)
    [⟨["b"], ["a"], 1/2, 1, 1⟩, ⟨["a"], ["b"], 1/2, 1/2, 1⟩] (by decide)

/-! ### Confidence bounds of generated rules (C7) -/

theorem antecedentsOf_sublist {a s : Itemset} (h : a ∈ antecedentsOf s) : a.Sublist s := by
  simp only [antecedentsOf, List.mem_flatMap] at h
  obtain ⟨i, _, hai⟩ := h
  exact ((mem_combinations i s a).mp hai).1

theorem lookup_mem {α : Type} : ∀ (l : List (Nat × α)) (k : Nat) (v : α),
    l.lookup k = some v → (k, v) ∈ l
  | [], k, v, h => by simp [List.lookup] at h
  | (k', v') :: es, k, v, h => by
    simp only [List.lookup] at h
    split at h
    · injection h with h'
      subst h'
      rename_i heq
      have hkk : k = k' := by simpa using heq
      subst hkk
      exact List.mem_cons_self _ _
    · exact List.mem_cons_of_mem _ (lookup_mem es k v h)

namespace BruteForceMiner

theorem get_support_count_mono {a b : Itemset} (h : a.Sublist b) (T : List Transaction) :
    get_support_count b T ≤ get_support_count a T := by
  apply List.countP_mono_left
  intro t _ hb
  simp only [issubset, List.all_eq_true] at hb ⊢
  exact fun x hx => hb x (h.subset hx)

theorem rulesLoop_conf_bounds (T : List Transaction) (mc : ℚ) (itemset : Itemset) :
    ∀ (ants : List Itemset) (rs : List AssociationRule),
      (∀ a ∈ ants, a.Sublist itemset) →
      rulesLoop T mc itemset (get_support_count itemset T) ants = .ok rs →
      ∀ r ∈ rs, mc ≤ r.confidence ∧ 0 ≤ r.confidence ∧ r.confidence ≤ 1
  | [], rs, _, h => by
    simp only [rulesLoop] at h
    injection h with h'
    subst h'
    intro r hr
    cases hr
  | a :: rest, rs, hsub, h => by
    have hrest : ∀ x ∈ rest, x.Sublist itemset :=
      fun x hx => hsub x (List.mem_cons_of_mem a hx)
    simp only [rulesLoop] at h
    by_cases h0 : get_support_count a T = 0
    · rw [if_pos h0] at h
      exact rulesLoop_conf_bounds T mc itemset rest rs hrest h
    · rw [if_neg h0] at h
      by_cases hc : mc ≤ (get_support_count itemset T : ℚ) / (get_support_count a T : ℚ)
      · rw [if_pos hc] at h
        by_cases hT : T.length = 0
        · rw [if_pos hT] at h
          exact Except.noConfusion h
        · rw [if_neg hT] at h
          by_cases hcs : (get_support_count (itemset.filter (fun x => ! a.contains x)) T : ℚ)
              / (T.length : ℚ) = 0
          · rw [if_pos hcs] at h
            exact Except.noConfusion h
          · rw [if_neg hcs] at h
            cases hrec : rulesLoop T mc itemset (get_support_count itemset T) rest with
            | error e =>
              simp only [hrec] at h
              exact Except.noConfusion h
            | ok rs' =>
              simp only [hrec] at h
              injection h with h'
              subst h'
              intro r hr
              rcases List.mem_cons.mp hr with rfl | hr
              · refine ⟨hc, div_nonneg (Nat.cast_nonneg _) (Nat.cast_nonneg _), ?_⟩
                have hpos : (0 : ℚ) < (get_support_count a T : ℚ) := by
                  exact_mod_cast Nat.pos_of_ne_zero h0
                rw [div_le_one hpos]
                exact_mod_cast get_support_count_mono (hsub a (List.mem_cons_self a rest)) T
              · exact rulesLoop_conf_bounds T mc itemset rest rs' hrest hrec r hr
      · rw [if_neg hc] at h
        exact rulesLoop_conf_bounds T mc itemset rest rs hrest h

theorem rulesForLevel_conf_bounds (T : List Transaction) (mc : ℚ) :
    ∀ (lvl : List (Itemset × Nat)) (rs : List AssociationRule),
      (∀ p ∈ lvl, p.2 = get_support_count p.1 T) →
      rulesForLevel T mc lvl = .ok rs →
      ∀ r ∈ rs, mc ≤ r.confidence ∧ 0 ≤ r.confidence ∧ r.confidence ≤ 1
  | [], rs, _, h => by
    simp only [rulesForLevel] at h
    injection h with h'
    subst h'
    intro r hr
    cases hr
  | (itemset, sc) :: rest, rs, hcnt, h => by
    have hsc : sc = get_support_count itemset T := hcnt (itemset, sc) (List.mem_cons_self _ _)
    simp only [rulesForLevel] at h
    cases h1 : rulesLoop T mc itemset sc (antecedentsOf itemset) with
    | error e =>
      simp only [h1] at h
      exact Except.noConfusion h
    | ok rs1 =>
      simp only [h1] at h
      cases h2 : rulesForLevel T mc rest with
      | error e =>
        simp only [h2] at h
        exact Except.noConfusion h
      | ok rs2 =>
        simp only [h2] at h
        injection h with h'
        subst h'
        intro r hr
        rcases List.mem_append.mp hr with hr | hr
        · exact rulesLoop_conf_bounds T mc itemset (antecedentsOf itemset) rs1
            (fun a ha => antecedentsOf_sublist ha) (hsc ▸ h1) r hr
        · exact rulesForLevel_conf_bounds T mc rest rs2
            (fun p hp => hcnt p (List.mem_cons_of_mem _ hp)) h2 r hr

theorem rulesOverKs_conf_bounds (table : FreqTable) (T : List Transaction) (mc : ℚ)
    (hcnt : ∀ k lvl, table.lookup k = some lvl → ∀ p ∈ lvl, p.2 = get_support_count p.1 T) :
    ∀ (ks : List Nat) (rs : List AssociationRule),
      rulesOverKs table T mc ks = .ok rs →
      ∀ r ∈ rs, mc ≤ r.confidence ∧ 0 ≤ r.confidence ∧ r.confidence ≤ 1
  | [], rs, h => by
    simp only [rulesOverKs] at h
    injection h with h'
    subst h'
    intro r hr
    cases hr
  | k :: ks, rs, h => by
    simp only [rulesOverKs] at h
    cases hlk : table.lookup k with
    | none =>
      simp only [hlk] at h
      exact rulesOverKs_conf_bounds table T mc hcnt ks rs h
    | some lvl =>
      simp only [hlk] at h
      cases h1 : rulesForLevel T mc lvl with
      | error e =>
        simp only [h1] at h
        exact Except.noConfusion h
      | ok rs1 =>
        simp only [h1] at h
        cases h2 : rulesOverKs table T mc ks with
        | error e =>
          simp only [h2] at h
          exact Except.noConfusion h
        | ok rs2 =>
          simp only [h2] at h
          injection h with h'
          subst h'
          intro r hr
          rcases List.mem_append.mp hr with hr | hr
          · exact rulesForLevel_conf_bounds T mc lvl rs1 (hcnt k lvl hlk) h1 r hr
          · exact rulesOverKs_conf_bounds table T mc hcnt ks rs2 h2 r hr

theorem mine_table_counts (T : List Transaction) (ms : ℚ) :
    ∀ (k : Nat) (lvl : List (Itemset × Nat)),
      (find_frequent_itemsets T ms).lookup k = some lvl →
      ∀ p ∈ lvl, p.2 = get_support_count p.1 T := by
  intro k lvl hlk p hp
  have hmem : (k, lvl) ∈ find_frequent_itemsets T ms := lookup_mem _ k lvl hlk
  have hlvl := mem_findLoop T ms (items_list T) ((items_list T).length + 1) 1 hmem
  subst hlvl
  obtain ⟨s, c⟩ := p
  exact (mem_frequentLevel hp).1

end BruteForceMiner

/-- Claim C7 counterexample: with minSupport = 0 (a value in the documented
range [0,1)) and minConfidence = 0, the table mined from [[a],[b]] contains
the 2-itemset {a,b} with SupportCount 0, and rule derivation emits the rule
{a} ⇒ {b} with confidence exactly 0, refuting the strict bound
0 < confidence. -/
theorem confidence_not_positive :
    BruteForceMiner.generate_association_rules
        (BruteForceMiner.find_frequent_itemsets [["a"], ["b"]] 0) [["a"], ["b"]] 0
      = .ok [⟨["a"], ["b"], 0, 0, 0⟩, ⟨["b"], ["a"], 0, 0, 0⟩]
    ∧ ¬ (0 < (⟨["a"], ["b"], 0, 0, 0⟩ : AssociationRule).confidence) := by
  exact ⟨by decide, by decide⟩

/-- Claim C7 (amended): for every transaction store, minSupport and
minConfidence, every rule emitted by rule derivation applied to the table
produced by mining over the same store satisfies
minConfidence ≤ confidence and 0 ≤ confidence ≤ 1 (the strict bound
0 < confidence fails when an itemset of SupportCount 0 enters the table,
which requires minSupport ≤ 0; for such rules confidence = 0). -/
theorem rules_confidence_bounds (T : List Transaction) (ms mc : ℚ)
    (rules : List AssociationRule)
    (h : BruteForceMiner.generate_association_rules
        (BruteForceMiner.find_frequent_itemsets T ms) T mc = .ok rules) :
    ∀ r ∈ rules, mc ≤ r.confidence ∧ 0 ≤ r.confidence ∧ r.confidence ≤ 1 := by
  unfold BruteForceMiner.generate_association_rules at h
  by_cases he : BruteForceMiner.find_frequent_itemsets T ms = []
  · rw [if_pos he] at h
    exact Except.noConfusion h
  · rw [if_neg he] at h
    cases hro : BruteForceMiner.rulesOverKs (BruteForceMiner.find_frequent_itemsets T ms) T mc
        (List.range' 2
          (maxKey ((BruteForceMiner.find_frequent_itemsets T ms).map Prod.fst) - 1)) with
    | error e =>
      simp only [hro] at h
      exact Except.noConfusion h
    | ok rs =>
      simp only [hro] at h
      injection h with h'
      subst h'
      intro r hr
      exact BruteForceMiner.rulesOverKs_conf_bounds
        (BruteForceMiner.find_frequent_itemsets T ms) T mc
        (BruteForceMiner.mine_table_counts T ms) _ rs hro r
        (((sortRules_perm rs).mem_iff).mp hr)

/-- Witness for the amended C7: the first rule output on the store [[a,b],[a]]
with minSupport 1 and minConfidence 1/2 satisfies the bounds. -/
theorem rules_confidence_bounds_witness :
    (1 : ℚ)/2 ≤ (⟨["b"], ["a"], 1/2, 1, 1⟩ : AssociationRule).confidence
    ∧ 0 ≤ (⟨["b"], ["a"], 1/2, 1, 1⟩ : AssociationRule).confidence
    ∧ (⟨["b"], ["a"], 1/2, 1, 1⟩ : AssociationRule).confidence ≤ 1 :=
  rules_confidence_bounds [["a", "b"], ["a"]] 1 (1/2)
    [⟨["b"], ["a"], 1/2, 1, 1⟩, ⟨["a"], ["b"], 1/2, 1/2, 1⟩] (by decide)
    ⟨["b"], ["a"], 1/2, 1, 1⟩ (by decide)

/-! ### Error handling of the rule generators (C3, C4) -/

/-- Claim C3 divergence: on a table containing {a,b} with SupportCount 0 over
the store [[a]] (minConfidence 0), the consequent {b} of the candidate rule
{a} ⇒ {b} has SupportCount 0.  The generators of `algorithms_brute_force.py`
and `main.py` emit the rule with lift defined as 0, as the claim states, but
`BruteForceMiner.generate_association_rules` performs the unguarded division
`confidence / self.get_support(consequent)` and raises ZeroDivisionError.
The same failure is reachable end-to-end from mining with minSupport = 0 on
the store [[a],[b],[c]] (the frequent 3-itemset {a,b,c} has count 0 and its
2-element consequents have count 0). -/
theorem lift_zero_guard_divergence :
    BruteForceMiner.generate_association_rules [(2, [(["a", "b"], 0)])] [["a"]] 0
      = .error "ZeroDivisionError: float division by zero"
    ∧ AlgorithmsBruteForce.generate_association_rules [(2, [(["a", "b"], 0)])] [["a"]] 0
      = .ok [⟨["a"], ["b"], 0, 0, 0⟩]
    ∧ InteractiveMiner.generate_rules [(2, [(["a", "b"], 0)])] [["a"]] 0
      = .ok [⟨["a"], ["b"], 0, 0, 0⟩]
    ∧ BruteForceMiner.generate_association_rules
        (BruteForceMiner.find_frequent_itemsets [["a"], ["b"], ["c"]] 0) [["a"], ["b"], ["c"]] 0
      = .error "ZeroDivisionError: float division by zero" := by
  exact ⟨by decide, by decide, by decide, by decide⟩

/-- Claim C4 divergence: mining an empty store (or any store whose 1-itemsets
are all infrequent) returns the empty table, as the claim states; but rule
derivation on the empty table raises ValueError (from `max()` over the empty
key view) in `BruteForceMiner.generate_association_rules` and in
`algorithms_brute_force.generate_association_rules` — only
`InteractiveMiner.generate_rules` guards the empty table and returns the
empty rule list. -/
theorem empty_table_rulegen_divergence :
    BruteForceMiner.find_frequent_itemsets [] (1/2) = []
    ∧ AlgorithmsBruteForce.brute_force_mining [["a"]] 2 = []
    ∧ InteractiveMiner.run_brute_force [] (1/2) = []
    ∧ BruteForceMiner.generate_association_rules [] [] (1/2)
        = .error "ValueError: max() arg is an empty sequence"
    ∧ AlgorithmsBruteForce.generate_association_rules [] [] (1/2)
        = .error "ValueError: max() arg is an empty sequence"
    ∧ InteractiveMiner.generate_rules [] [] (1/2) = .ok [] := by
  exact ⟨by decide, by decide, by decide, by decide, by decide, by decide⟩

section Checks

example : combinations 2 ["a", "b", "c"] = [["a", "b"], ["a", "c"], ["b", "c"]] := by decide

example : items_list [["b"], ["a"], ["b"]] = ["a", "b"] := by decide

example : BruteForceMiner.find_frequent_itemsets [["a"], ["b"], ["b"]] 1 =
    [(1, [(["a"], 1), (["b"], 2)])] := by decide

example : BruteForceMiner.generate_association_rules [(2, [(["a", "b"], 0)])] [["a"]] 0 =
    .error "ZeroDivisionError: float division by zero" := by decide

example : AlgorithmsBruteForce.generate_association_rules [(2, [(["a", "b"], 0)])] [["a"]] 0 =
    .ok [⟨["a"], ["b"], 0, 0, 0⟩] := by decide

example : InteractiveMiner.generate_rules [] [] (1/2) = .ok [] := by decide

example : AlgorithmsBruteForce.generate_association_rules [] [] (1/2) =
    .error "ValueError: max() arg is an empty sequence" := by decide

example : BruteForceMiner.generate_association_rules
      (BruteForceMiner.find_frequent_itemsets [["a", "b"], ["a"]] 1) [["a", "b"], ["a"]] (1/2) =
    .ok [⟨["b"], ["a"], 1/2, 1, 1⟩, ⟨["a"], ["b"], 1/2, 1/2, 1⟩] := by decide

end Checks
